import Mathlib

/-!
Shallow embedding of the `rcpputils::fs` path abstraction and directory-tree
operations (`src/src/filesystem_helper.cpp`, `src/include/rcpputils/split.hpp`)
for the POSIX (non-Windows) configuration: `kPreferredSeparator` is `'/'` and
`is_absolute_with_drive_letter` is constantly `false` (the `#else` branches of
the source).  Strings are modelled as `List Char`; the `path` class is a
structure holding the two data members `path_` and `path_as_vector_`.
-/

namespace rcpputils

namespace fs

/-- `kPreferredSeparator` from `filesystem_helper.hpp`: `'/'` on non-Windows. -/
def kPreferredSeparator : Char := '/'

/-- One `std::replace(begin, end, old, new)` call over the character sequence. -/
def replaceChar (old new : Char) (s : List Char) : List Char :=
  s.map (fun c => if c = old then new else c)

/-- `rcpputils::split(input, delim)` from `split.hpp` with `skip_empty = false`:
the `std::getline` tokenizer.  An empty input yields no tokens; a trailing
delimiter yields no trailing empty token; leading and duplicated delimiters
yield empty tokens. -/
def splitSep (delim : Char) : List Char → List (List Char)
  | [] => []
  | c :: cs =>
    if c = delim then
      [] :: splitSep delim cs
    else
      match splitSep delim cs with
      | [] => [[c]]
      | t :: ts => (c :: t) :: ts

/-- The `rcpputils::fs::path` class: data members `path_` (the string form) and
`path_as_vector_` (the segment sequence). -/
structure path where
  path_ : List Char
  path_as_vector_ : List (List Char)
deriving DecidableEq, Repr

/-- The two `std::replace` calls of the string conversion constructor
`path::path(const std::string &)`: backslashes, then forward slashes, are
replaced by the preferred separator. -/
def normalize (s : List Char) : List Char :=
  replaceChar '/' kPreferredSeparator (replaceChar '\\' kPreferredSeparator s)

/-- The conversion constructor `path::path(const std::string & p)`: normalize
the separators, then split on the preferred separator.  The default constructor
`path()` (empty string, empty vector) coincides with `ofString []`. -/
def path.ofString (p : List Char) : path :=
  { path_ := normalize p, path_as_vector_ := splitSep kPreferredSeparator (normalize p) }

/-- `path::string()`. -/
def path.string (p : path) : List Char := p.path_

/-- `path::empty()`. -/
def path.empty (p : path) : Bool := p.path_.isEmpty

/-- `is_absolute_with_drive_letter` on non-Windows: constantly `false`. -/
def is_absolute_with_drive_letter (_s : List Char) : Bool :=
  false

/-- `path::is_absolute()`: nonempty and starting with the preferred separator
(or a Windows drive letter, never on POSIX). -/
def path.is_absolute (p : path) : Bool :=
  match p.path_ with
  | [] => false
  | c :: _ => c == kPreferredSeparator || is_absolute_with_drive_letter p.path_

/-- `path::operator/=(const path &)` (and, composed with copy, the value-returning
`path::operator/(const path &)`).  An absolute right-hand side replaces both
members; otherwise a separator is appended unless the left string already ends
in one (it is appended when the left string is empty), then the right string
and the right segment vector are appended. -/
def path.div (a b : path) : path :=
  if b.is_absolute then
    { path_ := b.path_, path_as_vector_ := b.path_as_vector_ }
  else
    let s := if a.path_.isEmpty || (a.path_.getLastD kPreferredSeparator != kPreferredSeparator)
      then a.path_ ++ [kPreferredSeparator] else a.path_
    { path_ := s ++ b.path_, path_as_vector_ := a.path_as_vector_ ++ b.path_as_vector_ }

/-- The body of the `parent_path` loop: `parent = *it` (string conversion
constructor) when `parent.empty() && (!this->is_absolute() ||
is_absolute_with_drive_letter(path_))`, else `parent /= *it`. -/
def parentStep (p : path) (parent : path) (seg : List Char) : path :=
  if parent.empty && (!p.is_absolute || is_absolute_with_drive_letter p.path_) then
    path.ofString seg
  else
    parent.div (path.ofString seg)

/-- `path::parent_path()`.  The loop over `cbegin() .. --cend()` is the fold of
`parentStep` over `path_as_vector_.dropLast`, starting from the
default-constructed `parent`. -/
def path.parent_path (p : path) : path :=
  if p.empty then path.ofString []
  else if p.path_as_vector_.length = 1 then
    (if p.is_absolute then
      (if is_absolute_with_drive_letter p.path_ then
        path.ofString (p.path_as_vector_.headD [] ++ [kPreferredSeparator])
      else
        path.ofString [kPreferredSeparator])
    else
      path.ofString ['.'])
  else if p.path_as_vector_.length = 2 && is_absolute_with_drive_letter p.path_ then
    path.ofString (p.path_as_vector_.headD [] ++ [kPreferredSeparator])
  else
    p.path_as_vector_.dropLast.foldl (parentStep p) (path.ofString [])

/-- `path::filename()`: empty path when the string form is empty, otherwise the
last segment converted back to a path. -/
def path.filename (p : path) : path :=
  if p.path_.isEmpty then path.ofString [] else path.ofString (p.path_as_vector_.getLastD [])

/-- `path::extension()`: split the string form on `'.'`; a single-token split
yields the empty path, otherwise `'.'` prepended to the last token. -/
def path.extension (p : path) : path :=
  let split_fname := splitSep '.' p.path_
  if split_fname.length = 1 then path.ofString []
  else path.ofString ('.' :: split_fname.getLastD [])

/-- `std::string::find_last_of(c)`: index of the last occurrence, if any. -/
def find_last_of (c : Char) : List Char → Option Nat
  | [] => none
  | x :: xs =>
    match find_last_of c xs with
    | some i => some (i + 1)
    | none => if x = c then some 0 else none

/-- `rcpputils::fs::remove_extension(file_path, n_times)`: `n_times` rounds of
locating the last `'.'` and truncating before it (re-running the string
constructor on the truncation), stopping early when no `'.'` remains. -/
def remove_extension (file_path : path) : Nat → path
  | 0 => file_path
  | n + 1 =>
    match find_last_of '.' file_path.path_ with
    | none => file_path
    | some i => remove_extension (path.ofString (file_path.path_.take i)) n

/-- `operator==(const path &, const path &)`: string-form comparison only. -/
def path.beq (a b : path) : Bool := a.path_ == b.path_

/-- `operator!=(const path &, const path &)`: negation of `operator==`. -/
def path.bne (a b : path) : Bool := !(path.beq a b)

/-- Kind of a filesystem entry, for the `create_directories` state model. -/
inductive FKind where
  | dir
  | file
deriving DecidableEq, Repr

/-- Filesystem state for `create_directories`: the association list of existing
entries (path string, kind).  Entries are only added, never removed, by the
modelled operation. -/
abbrev Fs := List (List Char × FKind)

/-- Kind of the entry stored at a path string, if any. -/
def fsLookup (fs : Fs) (s : List Char) : Option FKind :=
  (fs.find? (fun e => e.1 == s)).map (fun e => e.2)

/-- The `access(path, 0) == 0` check behind `path::exists()`. -/
def osExists (fs : Fs) (s : List Char) : Bool := (fsLookup fs s).isSome

/-- The `stat`-based check behind `path::is_directory()`. -/
def osIsDir (fs : Fs) (s : List Char) : Bool := fsLookup fs s == some FKind.dir

/-- Outcome of the `mkdir` OS call. -/
inductive MkdirOutcome where
  | ok (fs : Fs)
  | eexist
  | other
deriving DecidableEq, Repr

/-- The `mkdir` OS call: `EEXIST` when the path already exists; any other OS
failure (permission denied, invalid component, ...) is modelled by a fixed
`denied` set of path strings on which `mkdir` fails with a non-`EEXIST` error;
otherwise the directory is created. -/
def osMkdir (denied : List (List Char)) (fs : Fs) (s : List Char) : MkdirOutcome :=
  if osExists fs s then MkdirOutcome.eexist
  else if s ∈ denied then MkdirOutcome.other
  else MkdirOutcome.ok ((s, FKind.dir) :: fs)

/-- One step of the accumulating sub-path of `create_directories`:
`if (!p_built.empty() || it->empty()) p_built /= *it; else p_built = *it;`. -/
def cdNext (p_built : path) (seg : List Char) : path :=
  if !p_built.empty || seg.isEmpty then p_built.div (path.ofString seg)
  else path.ofString seg

/-- The `for (auto it = p.cbegin(); it != p.cend() && status == 0; ++it)` loop of
`create_directories`: build the next sub-path; if it does not exist, call
`mkdir`, absorbing `EEXIST` (`status` reset to `0`); any other error stops the
iteration.  Returns the built path, whether `status == 0`, and the new state. -/
def cdLoop (denied : List (List Char)) : Fs → path → List (List Char) → path × Bool × Fs
  | fs, p_built, [] => (p_built, true, fs)
  | fs, p_built, seg :: rest =>
    let pb := cdNext p_built seg
    if osExists fs pb.path_ then cdLoop denied fs pb rest
    else
      match osMkdir denied fs pb.path_ with
      | MkdirOutcome.ok fs' => cdLoop denied fs' pb rest
      | MkdirOutcome.eexist => cdLoop denied fs pb rest
      | MkdirOutcome.other => (pb, false, fs)

/-- `rcpputils::fs::create_directories(p)`: run the walk starting from the
default-constructed `p_built`, then return `status == 0 && p_built.is_directory()`
together with the resulting filesystem state. -/
def create_directories (denied : List (List Char)) (fs : Fs) (p : path) : Bool × Fs :=
  match cdLoop denied fs (path.ofString []) p.path_as_vector_ with
  | (p_built, ok, fs') => (ok && osIsDir fs' p_built.path_, fs')

/-- The fully-built accumulating sub-path after walking all segments of `p`. -/
def buildPath (p : path) : path := p.path_as_vector_.foldl cdNext (path.ofString [])

/-- A directory tree rooted at a named entry, for the `remove_all` model.
`removable` is `false` on an entry whose removal the OS refuses (for instance
permission denied); `true` means the `remove`/`rmdir` call succeeds. -/
inductive FsEntry where
  | file (name : List Char) (removable : Bool)
  | dir (name : List Char) (removable : Bool) (children : List FsEntry)

mutual

/-- POSIX `rcpputils::fs::remove_all(p)` on the tree rooted at the given entry.
Returns the boolean result and the entry left behind (`none` when the entry no
longer exists).  A non-directory goes straight to `remove`.  For a directory,
the `readdir` loop processes the children in order (see `removeEntries`); if it
returns `false`, so does `remove_all`; once it completes, the now-empty
directory is removed (ignoring the result) and `!exists(p)` is returned. -/
def remove_all : FsEntry → Bool × Option FsEntry
  | FsEntry.file n rem => if rem then (true, none) else (false, some (FsEntry.file n rem))
  | FsEntry.dir n rem cs =>
    match removeEntries cs with
    | (false, cs') => (false, some (FsEntry.dir n rem cs'))
    | (true, cs') =>
      if rem then (true, none) else (false, some (FsEntry.dir n rem cs'))

/-- The `readdir` loop body of `remove_all` over the remaining directory
entries (`.` and `..` excluded), with the source's branch structure:
`if (sub_path.is_directory() && !remove_all(sub_path)) return false;`
`else if (!remove(sub_path)) return false;`.  For a file child the first
condition is false and `remove` decides; for a directory child whose recursive
`remove_all` fails the loop returns `false`; for a directory child whose
recursive `remove_all` succeeds, control still reaches the `else if`, whose
`remove` call acts on the just-deleted path, fails, and makes the loop return
`false` with the remaining entries untouched.  Returns whether the loop ran to
completion and the list of entries still existing. -/
def removeEntries : List FsEntry → Bool × List FsEntry
  | [] => (true, [])
  | FsEntry.file n rem :: rest =>
    if rem then removeEntries rest else (false, FsEntry.file n rem :: rest)
  | FsEntry.dir n rem cs :: rest =>
    match remove_all (FsEntry.dir n rem cs) with
    | (false, some e) => (false, e :: rest)
    | (false, none) => (false, rest)
    | (true, _) => (false, rest)

end

/-- Non-Windows `temp_directory_path()`.  The `rcutils_get_env("TMPDIR", &v)`
call is modelled by its observable result: `none` when the environment read
fails (`ret_str != NULL`), `some v` when it succeeds (with `v = []` when the
variable is unset or empty).  On failure or an empty value the fallback is
`"/tmp"`; otherwise the value itself is handed to the `path` constructor.
No directory is created and no exception path exists in this branch. -/
def temp_directory_path (tmpdir : Option (List Char)) : path :=
  match tmpdir with
  | none => path.ofString ['/', 't', 'm', 'p']
  | some v => if v.isEmpty then path.ofString ['/', 't', 'm', 'p'] else path.ofString v

/-- The specification-side invariant of the path value type: the stored segment
sequence equals the split of the stored string form on the preferred
separator. -/
def segInvariant (p : path) : Prop :=
  p.path_as_vector_ = splitSep kPreferredSeparator p.path_

instance (p : path) : Decidable (segInvariant p) := by
  unfold segInvariant
  infer_instance

/-- Specification-side join of a segment sequence with the preferred separator
interspersed (the inverse of `splitSep` on separator-normalized strings without
a trailing separator). -/
def joinSep : List (List Char) → List Char
  | [] => []
  | t :: ts =>
    match ts with
    | [] => t
    | _ :: _ => t ++ kPreferredSeparator :: joinSep ts

/-- Specification-side helper: the string contributed by the segments after the
first one, each preceded by a separator. -/
def joinTail (l : List (List Char)) : List Char :=
  (l.map (fun t => kPreferredSeparator :: t)).flatten

example : path.ofString ['a', '/', 'b'] =
    { path_ := ['a', '/', 'b'], path_as_vector_ := [['a'], ['b']] } := by decide

example : path.ofString ['/', 'a'] =
    { path_ := ['/', 'a'], path_as_vector_ := [[], ['a']] } := by decide

example : path.ofString ['a', '\\', 'b'] =
    { path_ := ['a', '/', 'b'], path_as_vector_ := [['a'], ['b']] } := by decide

example : path.ofString ['a', '/'] =
    { path_ := ['a', '/'], path_as_vector_ := [['a']] } := by decide

example : splitSep '/' ['a', '/', '/', 'b'] = [['a'], [], ['b']] := by decide

example : (path.ofString []).div (path.ofString ['b']) =
    { path_ := ['/', 'b'], path_as_vector_ := [['b']] } := by decide

example : (path.ofString ['/', 'a', '/', 'b']).parent_path =
    { path_ := ['/', 'a'], path_as_vector_ := [['a']] } := by decide

example : (path.ofString ['a', '/', 'b', '/', 'c']).parent_path =
    { path_ := ['a', '/', 'b'], path_as_vector_ := [['a'], ['b']] } := by decide

example : (path.ofString ['a', '.']).extension = path.ofString [] := by decide

example : (path.ofString ['a', '.', 'b', '.', 'c']).extension.path_ = ['.', 'c'] := by decide

example : remove_extension (path.ofString ['a', '.', 't', '.', 'g']) 2 =
    path.ofString ['a'] := by decide

/-! ### Lemmas about `splitSep` and `joinSep` -/

theorem splitSep_ne_nil (d c : Char) (cs : List Char) : splitSep d (c :: cs) ≠ [] := by
  simp only [splitSep]
  split
  · simp
  · split <;> simp

theorem splitSep_cons_self (d : Char) (cs : List Char) :
    splitSep d (d :: cs) = [] :: splitSep d cs := by
  simp [splitSep]

theorem splitSep_cons_ne (d c : Char) (cs : List Char) (h : c ≠ d) :
    splitSep d (c :: cs) =
      match splitSep d cs with
      | [] => [[c]]
      | t :: ts => (c :: t) :: ts := by
  simp [splitSep, h]

theorem splitSep_cons_structure (d c : Char) (cs : List Char) (h : c ≠ d) :
    ∃ t ts, splitSep d (c :: cs) = (c :: t) :: ts := by
  rw [splitSep_cons_ne d c cs h]
  cases hcs : splitSep d cs with
  | nil => exact ⟨[], [], rfl⟩
  | cons t ts => exact ⟨t, ts, rfl⟩

theorem splitSep_of_not_mem (d : Char) (s : List Char) (hs : s ≠ []) (h : d ∉ s) :
    splitSep d s = [s] := by
  induction s with
  | nil => exact absurd rfl hs
  | cons c cs ih =>
    have hc : c ≠ d := fun hh => h (hh ▸ List.mem_cons_self c cs)
    rw [splitSep_cons_ne d c cs hc]
    cases cs with
    | nil => rfl
    | cons c2 cs2 =>
      rw [ih (by simp) (fun hm => h (List.mem_cons_of_mem _ hm))]

theorem not_mem_of_mem_splitSep (d : Char) (s : List Char) :
    ∀ t ∈ splitSep d s, d ∉ t := by
  induction s with
  | nil => intro t ht; simp [splitSep] at ht
  | cons c cs ih =>
    by_cases hc : c = d
    · subst hc
      rw [splitSep_cons_self]
      intro t ht
      rcases List.mem_cons.mp ht with h1 | h1
      · subst h1; simp
      · exact ih t h1
    · rw [splitSep_cons_ne d c cs hc]
      cases hcs : splitSep d cs with
      | nil =>
        intro t ht
        rcases List.mem_cons.mp ht with h1 | h1
        · subst h1
          intro hm
          rcases List.mem_cons.mp hm with h2 | h2
          · exact hc h2.symm
          · simp at h2
        · simp at h1
      | cons t0 ts0 =>
        intro t ht
        rcases List.mem_cons.mp ht with h1 | h1
        · subst h1
          intro hm
          rcases List.mem_cons.mp hm with h2 | h2
          · exact hc h2.symm
          · exact ih t0 (hcs ▸ List.mem_cons_self t0 ts0) h2
        · exact ih t (hcs ▸ List.mem_cons_of_mem t0 h1)

theorem mem_of_mem_splitSep (d : Char) (s : List Char) :
    ∀ t ∈ splitSep d s, ∀ c ∈ t, c ∈ s := by
  induction s with
  | nil => intro t ht; simp [splitSep] at ht
  | cons a cs ih =>
    by_cases hc : a = d
    · subst hc
      rw [splitSep_cons_self]
      intro t ht c hct
      rcases List.mem_cons.mp ht with h1 | h1
      · subst h1; simp at hct
      · exact List.mem_cons_of_mem a (ih t h1 c hct)
    · rw [splitSep_cons_ne d a cs hc]
      cases hcs : splitSep d cs with
      | nil =>
        intro t ht c hct
        rcases List.mem_cons.mp ht with h1 | h1
        · subst h1
          rcases List.mem_cons.mp hct with h2 | h2
          · exact h2 ▸ List.mem_cons_self a cs
          · simp at h2
        · simp at h1
      | cons t0 ts0 =>
        intro t ht c hct
        rcases List.mem_cons.mp ht with h1 | h1
        · subst h1
          rcases List.mem_cons.mp hct with h2 | h2
          · exact h2 ▸ List.mem_cons_self a cs
          · exact List.mem_cons_of_mem a
              (ih t0 (hcs ▸ List.mem_cons_self t0 ts0) c h2)
        · exact List.mem_cons_of_mem a (ih t (hcs ▸ List.mem_cons_of_mem t0 h1) c hct)

theorem splitSep_append_of_getLast (d : Char) (x y : List Char) (hx : x ≠ [])
    (hlast : x.getLast? = some d) :
    splitSep d (x ++ y) = splitSep d x ++ splitSep d y := by
  induction x with
  | nil => exact absurd rfl hx
  | cons c cs ih =>
    cases cs with
    | nil =>
      have hc : c = d := by simpa using hlast
      subst hc
      simp [splitSep_cons_self, splitSep]
    | cons c2 cs2 =>
      have hlast2 : (c2 :: cs2).getLast? = some d := by
        rw [List.getLast?_cons_cons] at hlast
        exact hlast
      by_cases hc : c = d
      · subst hc
        rw [List.cons_append, splitSep_cons_self, splitSep_cons_self,
          ih (by simp) hlast2]
        simp
      · cases hs : splitSep d (c2 :: cs2) with
        | nil => exact absurd hs (splitSep_ne_nil d c2 cs2)
        | cons t ts =>
          have happ : splitSep d ((c2 :: cs2) ++ y) = t :: (ts ++ splitSep d y) := by
            rw [ih (by simp) hlast2, hs]
            rfl
          rw [List.cons_append, splitSep_cons_ne d c ((c2 :: cs2) ++ y) hc,
            splitSep_cons_ne d c (c2 :: cs2) hc, happ, hs]
          rfl

theorem splitSep_append_delim (d : Char) (x : List Char) (hx : x ≠ [])
    (hlast : x.getLast? ≠ some d) :
    splitSep d (x ++ [d]) = splitSep d x := by
  induction x with
  | nil => exact absurd rfl hx
  | cons c cs ih =>
    cases cs with
    | nil =>
      have hc : c ≠ d := by simpa using hlast
      rw [List.cons_append, List.nil_append, splitSep_cons_ne d c [d] hc,
        splitSep_cons_self, splitSep_cons_ne d c [] hc]
      rfl
    | cons c2 cs2 =>
      have hlast2 : (c2 :: cs2).getLast? ≠ some d := by
        rw [List.getLast?_cons_cons] at hlast
        exact hlast
      by_cases hc : c = d
      · subst hc
        rw [List.cons_append, splitSep_cons_self, splitSep_cons_self,
          ih (by simp) hlast2]
      · cases hs : splitSep d (c2 :: cs2) with
        | nil => exact absurd hs (splitSep_ne_nil d c2 cs2)
        | cons t ts =>
          have happ : splitSep d ((c2 :: cs2) ++ [d]) = t :: ts := by
            rw [ih (by simp) hlast2, hs]
          rw [List.cons_append, splitSep_cons_ne d c ((c2 :: cs2) ++ [d]) hc,
            splitSep_cons_ne d c (c2 :: cs2) hc, happ, hs]

theorem joinSep_cons (t : List Char) (ts : List (List Char)) (h : ts ≠ []) :
    joinSep (t :: ts) = t ++ kPreferredSeparator :: joinSep ts := by
  cases ts with
  | nil => exact absurd rfl h
  | cons a b => rfl

theorem joinTail_append (l1 l2 : List (List Char)) :
    joinTail (l1 ++ l2) = joinTail l1 ++ joinTail l2 := by
  simp [joinTail]

theorem joinSep_eq_head_append_joinTail (x : List Char) (l : List (List Char)) :
    joinSep (x :: l) = x ++ joinTail l := by
  induction l generalizing x with
  | nil => simp [joinSep, joinTail]
  | cons t ts ih =>
    rw [joinSep_cons x (t :: ts) (by simp), ih t]
    simp [joinTail]

theorem mem_replaceChar (old new c : Char) (s : List Char) (h : c ∈ replaceChar old new s) :
    c = new ∨ c ∈ s := by
  rcases List.mem_map.mp h with ⟨x, hx, hc⟩
  by_cases h1 : x = old
  · rw [if_pos h1] at hc
    exact Or.inl hc.symm
  · rw [if_neg h1] at hc
    exact Or.inr (hc ▸ hx)

theorem replaceChar_not_mem_old (old new : Char) (hne : new ≠ old) (s : List Char) :
    old ∉ replaceChar old new s := by
  intro h
  rcases List.mem_map.mp h with ⟨x, _, hc⟩
  by_cases h1 : x = old
  · rw [if_pos h1] at hc
    exact hne hc
  · rw [if_neg h1] at hc
    exact h1 hc

theorem normalize_no_backslash (s : List Char) : ('\\' : Char) ∉ normalize s := by
  intro h
  rcases mem_replaceChar '/' kPreferredSeparator '\\' _ h with h1 | h1
  · exact absurd h1 (by decide)
  · exact replaceChar_not_mem_old '\\' kPreferredSeparator (by decide) s h1

theorem normalize_eq_self (t : List Char) (h2 : ('\\' : Char) ∉ t) :
    normalize t = t := by
  induction t with
  | nil => rfl
  | cons c cs ih =>
    have hc2 : c ≠ '\\' := fun h => h2 (h ▸ List.mem_cons_self c cs)
    have ih' := ih (fun h => h2 (List.mem_cons_of_mem c h))
    have hstep : normalize (c :: cs) = c :: normalize cs := by
      unfold normalize replaceChar
      by_cases hc1 : c = '/' <;> simp [hc1, hc2, kPreferredSeparator]
    rw [hstep, ih']

theorem token_clean (s t : List Char)
    (ht : t ∈ splitSep kPreferredSeparator (normalize s)) :
    kPreferredSeparator ∉ t ∧ ('\\' : Char) ∉ t :=
  ⟨not_mem_of_mem_splitSep _ _ t ht,
    fun h => normalize_no_backslash s (mem_of_mem_splitSep _ _ t ht '\\' h)⟩

theorem joinSep_splitSep (s : List Char)
    (hlast : s.getLast? ≠ some kPreferredSeparator) :
    joinSep (splitSep kPreferredSeparator s) = s := by
  induction s with
  | nil => rfl
  | cons c cs ih =>
    cases cs with
    | nil =>
      have hc : c ≠ kPreferredSeparator := by simpa using hlast
      rw [splitSep_cons_ne _ c [] hc]
      rfl
    | cons c2 cs2 =>
      have hlast2 : (c2 :: cs2).getLast? ≠ some kPreferredSeparator := by
        rw [List.getLast?_cons_cons] at hlast
        exact hlast
      by_cases hc : c = kPreferredSeparator
      · subst hc
        rw [splitSep_cons_self]
        have hj := ih hlast2
        cases hs : splitSep kPreferredSeparator (c2 :: cs2) with
        | nil => exact absurd hs (splitSep_ne_nil kPreferredSeparator c2 cs2)
        | cons t ts =>
          rw [hs] at hj
          rw [joinSep_cons [] (t :: ts) (by simp), List.nil_append, hj]
      · cases hs : splitSep kPreferredSeparator (c2 :: cs2) with
        | nil => exact absurd hs (splitSep_ne_nil kPreferredSeparator c2 cs2)
        | cons t ts =>
          rw [splitSep_cons_ne _ c (c2 :: cs2) hc, hs]
          have hj : joinSep (t :: ts) = c2 :: cs2 := by rw [← hs, ih hlast2]
          cases ts with
          | nil =>
            have ht : t = c2 :: cs2 := by simpa [joinSep] using hj
            simp [joinSep, ht]
          | cons t2 ts2 =>
            rw [joinSep_cons t (t2 :: ts2) (by simp)] at hj
            show joinSep ((c :: t) :: t2 :: ts2) = c :: c2 :: cs2
            rw [joinSep_cons (c :: t) (t2 :: ts2) (by simp), List.cons_append, hj]

/-! ### Path-level lemmas -/

theorem ofString_inv (s : List Char) : segInvariant (path.ofString s) := rfl

theorem ofString_clean (t : List Char) (h1 : kPreferredSeparator ∉ t)
    (h2 : ('\\' : Char) ∉ t) (hne : t ≠ []) :
    path.ofString t = { path_ := t, path_as_vector_ := [t] } := by
  unfold path.ofString
  rw [normalize_eq_self t h2, splitSep_of_not_mem _ t hne h1]

theorem ofString_nil : path.ofString [] = { path_ := [], path_as_vector_ := [] } := rfl

theorem div_rel_of_sep (a b : path) (hb : b.is_absolute = false)
    (hlast : a.path_.getLast? = some kPreferredSeparator) :
    a.div b = { path_ := a.path_ ++ b.path_,
                path_as_vector_ := a.path_as_vector_ ++ b.path_as_vector_ } := by
  have ha : a.path_ ≠ [] := by
    intro h
    rw [h] at hlast
    simp at hlast
  unfold path.div
  rw [hb]
  simp only [Bool.false_eq_true, if_false]
  have h1 : a.path_.isEmpty = false := by simpa [List.isEmpty_iff] using ha
  simp [h1, hlast]

theorem div_rel_of_ne (a b : path) (hb : b.is_absolute = false)
    (hlast : a.path_.getLast? ≠ some kPreferredSeparator) :
    a.div b = { path_ := a.path_ ++ kPreferredSeparator :: b.path_,
                path_as_vector_ := a.path_as_vector_ ++ b.path_as_vector_ } := by
  unfold path.div
  rw [hb]
  simp only [Bool.false_eq_true, if_false]
  by_cases ha : a.path_ = []
  · simp [ha]
  · have h1 : a.path_.isEmpty = false := by simpa [List.isEmpty_iff] using ha
    obtain ⟨c, hc⟩ : ∃ c, a.path_.getLast? = some c := by
      cases hx : a.path_.getLast? with
      | none => exact absurd (List.getLast?_eq_none_iff.mp hx) ha
      | some c => exact ⟨c, rfl⟩
    have hcs : c ≠ kPreferredSeparator := fun h => hlast (by rw [hc, h])
    simp [h1, hc, hcs]

theorem div_absolute_eq (a b : path) (hb : b.is_absolute = true) : a.div b = b := by
  unfold path.div
  rw [hb]
  simp

theorem is_absolute_ne_nil (b : path) (hb : b.is_absolute = true) : b.path_ ≠ [] := by
  intro h
  unfold path.is_absolute at hb
  rw [h] at hb
  simp at hb

theorem normalize_ne_nil (s : List Char) (h : s ≠ []) : normalize s ≠ [] := by
  unfold normalize replaceChar
  simp [h]

theorem div_inv (a b : path) (ia : segInvariant a) (ib : segInvariant b)
    (ha : a.path_ ≠ []) : segInvariant (a.div b) := by
  by_cases hb : b.is_absolute = true
  · rw [div_absolute_eq a b hb]
    exact ib
  · have hb' : b.is_absolute = false := by simpa using hb
    by_cases hl : a.path_.getLast? = some kPreferredSeparator
    · rw [div_rel_of_sep a b hb' hl]
      show a.path_as_vector_ ++ b.path_as_vector_ =
        splitSep kPreferredSeparator (a.path_ ++ b.path_)
      rw [ia, ib, splitSep_append_of_getLast _ _ _ ha hl]
    · rw [div_rel_of_ne a b hb' hl]
      show a.path_as_vector_ ++ b.path_as_vector_ =
        splitSep kPreferredSeparator (a.path_ ++ kPreferredSeparator :: b.path_)
      have e1 : a.path_ ++ kPreferredSeparator :: b.path_ =
          (a.path_ ++ [kPreferredSeparator]) ++ b.path_ := by simp
      rw [ia, ib, e1,
        splitSep_append_of_getLast _ _ _ (by simp) (List.getLast?_concat _),
        splitSep_append_delim _ _ ha hl]

theorem div_ne_nil (a b : path) (ha : a.path_ ≠ []) : (a.div b).path_ ≠ [] := by
  by_cases hb : b.is_absolute = true
  · rw [div_absolute_eq a b hb]
    exact is_absolute_ne_nil b hb
  · have hb' : b.is_absolute = false := by simpa using hb
    by_cases hl : a.path_.getLast? = some kPreferredSeparator
    · rw [div_rel_of_sep a b hb' hl]
      simp [ha]
    · rw [div_rel_of_ne a b hb' hl]
      simp

theorem remove_extension_inv (p : path) (n : Nat) (hp : segInvariant p) :
    segInvariant (remove_extension p n) := by
  induction n generalizing p with
  | zero => exact hp
  | succ n ih =>
    unfold remove_extension
    cases hfind : find_last_of '.' p.path_ with
    | none => exact hp
    | some i => exact ih _ (ofString_inv _)

theorem foldl_parentStep_inv (p : path) (l : List (List Char)) (par : path)
    (hinv : segInvariant par) (hne : par.path_ ≠ []) :
    segInvariant (l.foldl (parentStep p) par) ∧
      (l.foldl (parentStep p) par).path_ ≠ [] := by
  induction l generalizing par with
  | nil => exact ⟨hinv, hne⟩
  | cons seg rest ih =>
    have hstep : parentStep p par seg = par.div (path.ofString seg) := by
      unfold parentStep
      have hemp : par.empty = false := by
        simp [path.empty, List.isEmpty_iff, hne]
      simp [hemp]
    rw [List.foldl_cons, hstep]
    exact ih _ (div_inv par _ hinv (ofString_inv seg) hne) (div_ne_nil par _ hne)

theorem mem_of_getLast?_eq {α : Type} (l : List α) (a : α) (h : l.getLast? = some a) :
    a ∈ l := by
  have h2 : a ∈ l.getLast? := by
    rw [h]
    rfl
  obtain ⟨hh, he⟩ := List.mem_getLast?_eq_getLast h2
  exact he ▸ List.getLast_mem hh

theorem parent_path_inv_of_relative (p : path) (hp : segInvariant p)
    (habs : p.is_absolute = false) : segInvariant p.parent_path := by
  unfold path.parent_path
  by_cases h0 : p.empty = true
  · rw [if_pos h0]
    exact ofString_inv []
  · rw [if_neg h0]
    by_cases h1 : p.path_as_vector_.length = 1
    · rw [if_pos h1, if_neg (by simp [habs])]
      exact ofString_inv _
    · rw [if_neg h1, if_neg (by simp [is_absolute_with_drive_letter])]
      cases hl : p.path_as_vector_.dropLast with
      | nil => exact ofString_inv []
      | cons seg0 rest =>
        rw [List.foldl_cons]
        have hstep : parentStep p (path.ofString []) seg0 = path.ofString seg0 := by
          unfold parentStep
          rw [habs]
          simp [path.empty, ofString_nil]
        rw [hstep]
        have hseg0 : seg0 ≠ [] := by
          have hpne : p.path_ ≠ [] := by
            intro h
            exact h0 (by simp [path.empty, h])
          cases hps : p.path_ with
          | nil => exact absurd hps hpne
          | cons c cs =>
            have hc : c ≠ kPreferredSeparator := by
              intro h
              unfold path.is_absolute at habs
              rw [hps] at habs
              simp [h] at habs
            obtain ⟨t, ts, hts⟩ := splitSep_cons_structure kPreferredSeparator c cs hc
            have hvec : p.path_as_vector_ = (c :: t) :: ts := by
              rw [hp, hps, hts]
            cases ts with
            | nil => exact absurd (by rw [hvec]; rfl) h1
            | cons t2 ts2 =>
              rw [hvec] at hl
              have h2 : ((c :: t) :: t2 :: ts2).dropLast =
                  (c :: t) :: (t2 :: ts2).dropLast := rfl
              rw [h2] at hl
              have h3 : seg0 = c :: t := by
                injection hl with ha hb
                exact ha.symm
              simp [h3]
        exact (foldl_parentStep_inv p rest (path.ofString seg0) (ofString_inv seg0)
          (normalize_ne_nil seg0 hseg0)).1

theorem ofString_clean_relative (t : List Char) (h1 : kPreferredSeparator ∉ t)
    (h2 : ('\\' : Char) ∉ t) : (path.ofString t).is_absolute = false := by
  cases t with
  | nil => rfl
  | cons c cs =>
    rw [ofString_clean (c :: cs) h1 h2 (by simp)]
    show (c == kPreferredSeparator || is_absolute_with_drive_letter (c :: cs)) = false
    have hc : (c == kPreferredSeparator) = false := by
      rw [beq_eq_false_iff_ne]
      exact fun h => h1 (h ▸ List.mem_cons_self c cs)
    rw [hc]
    rfl

theorem getLast?_ne_of_not_mem (t : List Char)
    (h1 : kPreferredSeparator ∉ t) : t.getLast? ≠ some kPreferredSeparator :=
  fun h => h1 (mem_of_getLast?_eq t kPreferredSeparator h)

theorem foldl_parentStep_string (p : path) (l : List (List Char)) (par : path)
    (hne : par.path_ ≠ []) (hlast : par.path_.getLast? ≠ some kPreferredSeparator)
    (hl : ∀ t ∈ l, t ≠ [] ∧ kPreferredSeparator ∉ t ∧ ('\\' : Char) ∉ t) :
    (l.foldl (parentStep p) par).path_ = par.path_ ++ joinTail l ∧
      (l.foldl (parentStep p) par).path_.getLast? ≠ some kPreferredSeparator := by
  revert hne hlast hl
  induction l generalizing par with
  | nil =>
    intro hne hlast _
    exact ⟨by simp [joinTail], hlast⟩
  | cons t rest ih =>
    intro hne hlast hl
    obtain ⟨ht1, ht2, ht3⟩ := hl t (List.mem_cons_self t rest)
    have hofs : path.ofString t = { path_ := t, path_as_vector_ := [t] } :=
      ofString_clean t ht2 ht3 ht1
    have hrel : (path.ofString t).is_absolute = false :=
      ofString_clean_relative t ht2 ht3
    have hstep : parentStep p par t = par.div (path.ofString t) := by
      unfold parentStep
      have hemp : par.empty = false := by
        simp [path.empty, List.isEmpty_iff, hne]
      simp [hemp]
    have hdiv : (par.div (path.ofString t)).path_ =
        par.path_ ++ kPreferredSeparator :: t := by
      rw [div_rel_of_ne par _ hrel hlast, hofs]
    have hlast2 : (par.div (path.ofString t)).path_.getLast? ≠
        some kPreferredSeparator := by
      rw [hdiv]
      rw [List.getLast?_append_of_ne_nil _ (by simp : kPreferredSeparator :: t ≠ [])]
      cases t with
      | nil => exact absurd rfl ht1
      | cons c cs =>
        rw [List.getLast?_cons_cons]
        intro hx
        exact ht2 (mem_of_getLast?_eq (c :: cs) kPreferredSeparator hx)
    have hne2 : (par.div (path.ofString t)).path_ ≠ [] := div_ne_nil par _ hne
    rw [List.foldl_cons, hstep]
    obtain ⟨hs, hl2⟩ := ih (par.div (path.ofString t)) hne2 hlast2
      (fun x hx => hl x (List.mem_cons_of_mem t hx))
    refine ⟨?_, hl2⟩
    rw [hs, hdiv]
    simp [joinTail]

/-! ### Lemmas about `create_directories` -/

theorem osExists_cons (e : List Char × FKind) (fs : Fs) (s : List Char)
    (h : osExists fs s = true) : osExists (e :: fs) s = true := by
  unfold osExists fsLookup at h ⊢
  rw [List.find?_cons]
  cases hpe : (e.1 == s)
  · exact h
  · rfl

theorem osExists_self (s : List Char) (k : FKind) (fs : Fs) :
    osExists ((s, k) :: fs) s = true := by
  unfold osExists fsLookup
  rw [List.find?_cons]
  simp

theorem cdLoop_step_exists (denied : List (List Char)) (fs : Fs) (pb : path)
    (seg : List Char) (rest : List (List Char))
    (hex : osExists fs (cdNext pb seg).path_ = true) :
    cdLoop denied fs pb (seg :: rest) = cdLoop denied fs (cdNext pb seg) rest := by
  simp only [cdLoop, hex, if_true]

theorem cdLoop_step_ok (denied : List (List Char)) (fs : Fs) (pb : path)
    (seg : List Char) (rest : List (List Char))
    (hex : osExists fs (cdNext pb seg).path_ = false)
    (hd : (cdNext pb seg).path_ ∉ denied) :
    cdLoop denied fs pb (seg :: rest) =
      cdLoop denied (((cdNext pb seg).path_, FKind.dir) :: fs) (cdNext pb seg) rest := by
  simp only [cdLoop, osMkdir, hex, hd, Bool.false_eq_true, if_false]

theorem cdLoop_step_other (denied : List (List Char)) (fs : Fs) (pb : path)
    (seg : List Char) (rest : List (List Char))
    (hex : osExists fs (cdNext pb seg).path_ = false)
    (hd : (cdNext pb seg).path_ ∈ denied) :
    cdLoop denied fs pb (seg :: rest) = (cdNext pb seg, false, fs) := by
  simp only [cdLoop, osMkdir, hex, hd, Bool.false_eq_true, if_false, if_true]

theorem cdLoop_mono (denied : List (List Char)) (l : List (List Char)) (fs : Fs)
    (pb : path) (s : List Char) (h : osExists fs s = true) :
    osExists (cdLoop denied fs pb l).2.2 s = true := by
  induction l generalizing fs pb with
  | nil => exact h
  | cons seg rest ih =>
    by_cases hex : osExists fs (cdNext pb seg).path_ = true
    · rw [cdLoop_step_exists denied fs pb seg rest hex]
      exact ih fs (cdNext pb seg) h
    · have hex' : osExists fs (cdNext pb seg).path_ = false := by
        simpa using hex
      by_cases hd : (cdNext pb seg).path_ ∈ denied
      · rw [cdLoop_step_other denied fs pb seg rest hex' hd]
        exact h
      · rw [cdLoop_step_ok denied fs pb seg rest hex' hd]
        exact ih _ (cdNext pb seg) (osExists_cons _ fs s h)

theorem cdLoop_rerun (denied : List (List Char)) (l : List (List Char))
    (fs fs' : Fs) (pb pb' : path)
    (h : cdLoop denied fs pb l = (pb', true, fs')) :
    cdLoop denied fs' pb l = (pb', true, fs') := by
  induction l generalizing fs pb with
  | nil =>
    simp only [cdLoop, Prod.mk.injEq] at h
    obtain ⟨h1, _, h3⟩ := h
    subst h1
    subst h3
    rfl
  | cons seg rest ih =>
    by_cases hex : osExists fs (cdNext pb seg).path_ = true
    · rw [cdLoop_step_exists denied fs pb seg rest hex] at h
      have hex' : osExists fs' (cdNext pb seg).path_ = true := by
        have hm := cdLoop_mono denied rest fs (cdNext pb seg) (cdNext pb seg).path_ hex
        rw [h] at hm
        exact hm
      rw [cdLoop_step_exists denied fs' pb seg rest hex']
      exact ih fs (cdNext pb seg) h
    · have hexf : osExists fs (cdNext pb seg).path_ = false := by
        simpa using hex
      by_cases hd : (cdNext pb seg).path_ ∈ denied
      · rw [cdLoop_step_other denied fs pb seg rest hexf hd] at h
        simp at h
      · rw [cdLoop_step_ok denied fs pb seg rest hexf hd] at h
        have hself : osExists (((cdNext pb seg).path_, FKind.dir) :: fs)
            (cdNext pb seg).path_ = true := osExists_self _ _ fs
        have hex' : osExists fs' (cdNext pb seg).path_ = true := by
          have hm := cdLoop_mono denied rest _ (cdNext pb seg) (cdNext pb seg).path_ hself
          rw [h] at hm
          exact hm
        rw [cdLoop_step_exists denied fs' pb seg rest hex']
        exact ih _ (cdNext pb seg) h

theorem cdLoop_built (denied : List (List Char)) (l : List (List Char))
    (fs fs' : Fs) (pb pb' : path)
    (h : cdLoop denied fs pb l = (pb', true, fs')) :
    pb' = l.foldl cdNext pb := by
  induction l generalizing fs pb with
  | nil =>
    simp only [cdLoop, Prod.mk.injEq] at h
    exact h.1.symm
  | cons seg rest ih =>
    rw [List.foldl_cons]
    by_cases hex : osExists fs (cdNext pb seg).path_ = true
    · rw [cdLoop_step_exists denied fs pb seg rest hex] at h
      exact ih fs (cdNext pb seg) h
    · have hexf : osExists fs (cdNext pb seg).path_ = false := by
        simpa using hex
      by_cases hd : (cdNext pb seg).path_ ∈ denied
      · rw [cdLoop_step_other denied fs pb seg rest hexf hd] at h
        simp at h
      · rw [cdLoop_step_ok denied fs pb seg rest hexf hd] at h
        exact ih _ (cdNext pb seg) h

/-! ### Claim theorems -/

/-- Claim C2, counterexample: the claimed invariant — the segment sequence always
equals the split of the string form — is violated by a path reachable through
the public operations.  `Path("") / Path("b")` has string form `"/b"` (the code
appends a separator to an empty left operand) but segment sequence `["b"]`,
while splitting `"/b"` yields `["", "b"]`. -/
theorem path_invariant_counterexample :
    ¬ segInvariant ((path.ofString []).div (path.ofString ['b'])) := by decide

/-- Claim C2, amended: the segment-sequence invariant holds at construction
from a string, and is preserved by `operator/` / `operator/=` whenever the
left operand's string form is nonempty, by `remove_extension`, and by
`parent_path` on relative paths.  (It can break when the left operand of a
concatenation is empty, and when taking `parent_path` of an absolute
multi-segment path.) -/
theorem path_invariant_spec :
    (∀ s : List Char, segInvariant (path.ofString s)) ∧
    (∀ a b : path, segInvariant a → segInvariant b → a.path_ ≠ [] →
      segInvariant (a.div b)) ∧
    (∀ (p : path) (n : Nat), segInvariant p → segInvariant (remove_extension p n)) ∧
    (∀ p : path, segInvariant p → p.is_absolute = false → segInvariant p.parent_path) :=
  ⟨ofString_inv, div_inv, fun p n hp => remove_extension_inv p n hp,
    parent_path_inv_of_relative⟩

/-- Witness for the amended Claim C2 at concrete inputs. -/
theorem path_invariant_spec_witness :
    segInvariant ((path.ofString ['a']).div (path.ofString ['b'])) ∧
      segInvariant (path.ofString ['a', '/', 'b']).parent_path :=
  ⟨path_invariant_spec.2.1 _ _ (by decide) (by decide) (by decide),
    path_invariant_spec.2.2.2 _ (by decide) (by decide)⟩

/-- Claim C3, counterexample: for an empty left operand the claim says the
separator is not appended, so the result's string form would be
`"" + "b" = "b"`; the code appends the separator and produces `"/b"`. -/
theorem div_empty_left_counterexample :
    (path.ofString ['b']).is_absolute = false ∧
      ((path.ofString []).div (path.ofString ['b'])).path_ ≠
        (path.ofString []).path_ ++ (path.ofString ['b']).path_ := by decide

/-- Claim C3, amended: for a relative right operand, `a / b` (and `a /= b`)
yields the segment sequence `a`'s segments followed by `b`'s segments, and the
string form `a.string() + separator + b.string()`, except that the separator is
omitted exactly when `a`'s string form is nonempty and already ends in the
separator (in particular, when `a` is empty the separator IS appended). -/
theorem div_relative_spec (a b : path) (hb : b.is_absolute = false) :
    (a.div b).path_as_vector_ = a.path_as_vector_ ++ b.path_as_vector_ ∧
    (a.div b).path_ =
      (if a.path_ ≠ [] ∧ a.path_.getLast? = some kPreferredSeparator
       then a.path_ ++ b.path_
       else a.path_ ++ kPreferredSeparator :: b.path_) := by
  by_cases hl : a.path_.getLast? = some kPreferredSeparator
  · have ha : a.path_ ≠ [] := by
      intro h
      rw [h] at hl
      simp at hl
    rw [div_rel_of_sep a b hb hl]
    exact ⟨rfl, by rw [if_pos ⟨ha, hl⟩]⟩
  · rw [div_rel_of_ne a b hb hl]
    exact ⟨rfl, by rw [if_neg (fun h => hl h.2)]⟩

/-- Witness for the amended Claim C3 at concrete inputs. -/
theorem div_relative_spec_witness :
    ((path.ofString ['a']).div (path.ofString ['b'])).path_as_vector_ =
      (path.ofString ['a']).path_as_vector_ ++ (path.ofString ['b']).path_as_vector_ ∧
    ((path.ofString ['a']).div (path.ofString ['b'])).path_ =
      (if (path.ofString ['a']).path_ ≠ [] ∧
          (path.ofString ['a']).path_.getLast? = some kPreferredSeparator
       then (path.ofString ['a']).path_ ++ (path.ofString ['b']).path_
       else (path.ofString ['a']).path_ ++
         kPreferredSeparator :: (path.ofString ['b']).path_) :=
  div_relative_spec (path.ofString ['a']) (path.ofString ['b']) (by decide)

/-- Claim C4: appending an absolute right operand discards the left operand
entirely: the result is the right operand itself, in string form and in
segment sequence. -/
theorem div_absolute_spec (a b : path) (hb : b.is_absolute = true) :
    a.div b = b ∧ (a.div b).path_ = b.path_ ∧
      (a.div b).path_as_vector_ = b.path_as_vector_ := by
  have h := div_absolute_eq a b hb
  exact ⟨h, by rw [h], by rw [h]⟩

/-- Witness for Claim C4 at concrete inputs. -/
theorem div_absolute_spec_witness :
    (path.ofString ['x']).div (path.ofString ['/', 'y']) = path.ofString ['/', 'y'] ∧
    ((path.ofString ['x']).div (path.ofString ['/', 'y'])).path_ =
      (path.ofString ['/', 'y']).path_ ∧
    ((path.ofString ['x']).div (path.ofString ['/', 'y'])).path_as_vector_ =
      (path.ofString ['/', 'y']).path_as_vector_ :=
  div_absolute_spec (path.ofString ['x']) (path.ofString ['/', 'y']) (by decide)

/-- Claim C9: on non-Windows platforms `temp_directory_path()` returns the value
of `TMPDIR` as a path, falling back to `"/tmp"` when the environment read
fails or the value is unset/empty.  The modelled operation is total (no
exception path) and touches no filesystem state. -/
theorem temp_directory_path_spec :
    temp_directory_path none = path.ofString ['/', 't', 'm', 'p'] ∧
    temp_directory_path (some []) = path.ofString ['/', 't', 'm', 'p'] ∧
    (∀ v : List Char, v ≠ [] → temp_directory_path (some v) = path.ofString v) := by
  refine ⟨rfl, rfl, fun v hv => ?_⟩
  have hemp : v.isEmpty = false := by
    simp [List.isEmpty_iff, hv]
  show (if v.isEmpty = true then path.ofString ['/', 't', 'm', 'p']
    else path.ofString v) = path.ofString v
  rw [hemp]
  simp

/-- Witness for Claim C9 at a concrete environment value. -/
theorem temp_directory_path_spec_witness :
    ['x'] ≠ ([] : List Char) ∧
      temp_directory_path (some ['x']) = path.ofString ['x'] :=
  ⟨by decide, temp_directory_path_spec.2.2 ['x'] (by decide)⟩

/-- Claim C10: `operator==` compares only the string forms — `a == b` holds iff
`a.string()` equals `b.string()`, for all path values regardless of their
segment sequences — and `operator!=` is the exact negation of `operator==`. -/
theorem path_eq_spec (a b : path) :
    (path.beq a b = true ↔ a.path_ = b.path_) ∧ path.bne a b = !path.beq a b := by
  constructor
  · simp [path.beq]
  · rfl

theorem getLastD_mem_of_ne_nil {α : Type} (l : List α) (d : α) (h : l ≠ []) :
    l.getLastD d ∈ l := by
  cases l with
  | nil => exact absurd rfl h
  | cons a as =>
    rw [List.getLastD_eq_getLast? _ _]
    cases hx : (a :: as).getLast? with
    | none => exact absurd (List.getLast?_eq_none_iff.mp hx) (by simp)
    | some b =>
      simp only [Option.getD_some]
      exact mem_of_getLast?_eq _ b hx

/-- Claim C8: `Path(s)` accepts every string; the stored string form is `s` with
every `'/'` and every `'\'` replaced by the preferred separator (hence contains
no `'\'`, the non-preferred separator on POSIX); the segment sequence is the
split of the stored string form on the preferred separator; and that split
preserves the empty segments arising from a leading separator and from
duplicated separators. -/
theorem path_construction_spec (s : List Char) :
    (path.ofString s).path_ =
      s.map (fun c => if c = '/' || c = '\\' then kPreferredSeparator else c) ∧
    (∀ c ∈ (path.ofString s).path_, c ≠ '\\') ∧
    (path.ofString s).path_as_vector_ =
      splitSep kPreferredSeparator (path.ofString s).path_ ∧
    (∀ cs : List Char, splitSep kPreferredSeparator (kPreferredSeparator :: cs) =
      [] :: splitSep kPreferredSeparator cs) ∧
    (∀ x cs : List Char, x ≠ [] → x.getLast? = some kPreferredSeparator →
      splitSep kPreferredSeparator (x ++ kPreferredSeparator :: cs) =
        splitSep kPreferredSeparator x ++ [] :: splitSep kPreferredSeparator cs) := by
  refine ⟨?_, fun c hc h => normalize_no_backslash s (h ▸ hc), rfl,
    fun cs => splitSep_cons_self _ cs, fun x cs hx hlast => ?_⟩
  · show normalize s = _
    unfold normalize replaceChar
    rw [List.map_map]
    congr 1
    funext c
    by_cases h1 : c = '/' <;> by_cases h2 : c = '\\' <;>
      simp [Function.comp, h1, h2, kPreferredSeparator]
  · rw [splitSep_append_of_getLast _ x (kPreferredSeparator :: cs) hx hlast,
      splitSep_cons_self]

/-- Witness for Claim C8 at concrete inputs. -/
theorem path_construction_spec_witness :
    ('/' : Char) ≠ '\\' ∧
      splitSep kPreferredSeparator (['a', '/'] ++ kPreferredSeparator :: ['b']) =
        splitSep kPreferredSeparator ['a', '/'] ++
          [] :: splitSep kPreferredSeparator ['b'] :=
  ⟨(path_construction_spec ['/', 'a']).2.1 '/' (by decide),
    (path_construction_spec ['/', 'a']).2.2.2.2 ['a', '/'] ['b'] (by decide) (by decide)⟩

/-- Claim C7, counterexample: the string form of `Path("a.")` contains a `'.'`,
so the claim says `extension()` returns `'.'` concatenated with the final
dot-delimited fragment (a nonempty path); the code returns the empty path,
because the getline-style split of `"a."` on `'.'` yields the single fragment
`["a"]`. -/
theorem extension_counterexample :
    ('.' : Char) ∈ (path.ofString ['a', '.']).path_ ∧
      (path.ofString ['a', '.']).extension = path.ofString [] := by decide

/-- Claim C7, amended: for a path with nonempty string form, `extension()`
returns the empty path exactly when the getline-style split of the string form
on `'.'` yields a single fragment — in particular whenever no `'.'` occurs, but
also when the only `'.'` is a single trailing dot — and otherwise returns `'.'`
prepended to the final fragment (only the last extension is captured, e.g.
`a.b.c` yields `.c`). -/
theorem extension_spec (s : List Char) (hne : (path.ofString s).path_ ≠ []) :
    ((('.' : Char) ∉ (path.ofString s).path_) →
      (path.ofString s).extension = path.ofString []) ∧
    ((splitSep '.' (path.ofString s).path_).length = 1 →
      (path.ofString s).extension = path.ofString []) ∧
    ((splitSep '.' (path.ofString s).path_).length ≠ 1 →
      (path.ofString s).extension.path_ =
        '.' :: (splitSep '.' (path.ofString s).path_).getLastD []) := by
  have hone : (splitSep '.' (path.ofString s).path_).length = 1 →
      (path.ofString s).extension = path.ofString [] := by
    intro h
    unfold path.extension
    rw [if_pos h]
  refine ⟨fun h => hone ?_, hone, fun h => ?_⟩
  · rw [splitSep_of_not_mem '.' _ hne h]
    rfl
  · unfold path.extension
    rw [if_neg h]
    have hblast : ('\\' : Char) ∉
        ('.' :: (splitSep '.' (path.ofString s).path_).getLastD []) := by
      intro hb
      rcases List.mem_cons.mp hb with h1 | h1
      · exact absurd h1 (by decide)
      · cases hsp : splitSep '.' (path.ofString s).path_ with
        | nil =>
          rw [hsp] at h1
          simp at h1
        | cons t ts =>
          rw [hsp] at h1
          have hm : (t :: ts).getLastD [] ∈ splitSep '.' (path.ofString s).path_ := by
            rw [hsp]
            exact getLastD_mem_of_ne_nil (t :: ts) [] (by simp)
          exact normalize_no_backslash s
            (mem_of_mem_splitSep '.' (path.ofString s).path_ _ hm '\\' h1)
    show (path.ofString
      ('.' :: (splitSep '.' (path.ofString s).path_).getLastD [])).path_ = _
    show normalize _ = _
    rw [normalize_eq_self _ hblast]

/-- Witness for the amended Claim C7 at a concrete input. -/
theorem extension_spec_witness :
    (path.ofString ['a', '.', 'b', '.', 'c']).extension.path_ =
      '.' :: (splitSep '.' (path.ofString ['a', '.', 'b', '.', 'c']).path_).getLastD [] :=
  (extension_spec ['a', '.', 'b', '.', 'c'] (by decide)).2.2 (by decide)

/-- Claim C5: `create_directories(p)` walks `p`'s segments left-to-right,
building the accumulating sub-path, issues a directory-creation call only for
prefixes that do not exist, absorbs the `EEXIST` error as success, and never
throws (the modelled operation is a total function; any other `mkdir` error
stops the walk with a failed status).  It returns `true` iff the walk completed
with a zero status and the fully-built path is a directory in the resulting
filesystem state; and it is idempotent: when a call returns `true`, an
immediately repeated call also returns `true` and leaves the filesystem state
unchanged. -/
theorem create_directories_spec (denied : List (List Char)) (fs : Fs) (p : path) :
    ((create_directories denied fs p).1 = true ↔
      ((cdLoop denied fs (path.ofString []) p.path_as_vector_).2.1 = true ∧
        osIsDir (create_directories denied fs p).2 (buildPath p).path_ = true)) ∧
    ((create_directories denied fs p).1 = true →
      create_directories denied (create_directories denied fs p).2 p =
        (true, (create_directories denied fs p).2)) := by
  rcases hcd : cdLoop denied fs (path.ofString []) p.path_as_vector_ with ⟨pb, ok, fs'⟩
  have hc : create_directories denied fs p = (ok && osIsDir fs' pb.path_, fs') := by
    unfold create_directories
    rw [hcd]
  have h1 : (create_directories denied fs p).1 = (ok && osIsDir fs' pb.path_) := by
    rw [hc]
  have h2 : (create_directories denied fs p).2 = fs' := by
    rw [hc]
  have h3 : (cdLoop denied fs (path.ofString []) p.path_as_vector_).2.1 = ok := by
    rw [hcd]
  constructor
  · rw [h1, h2]
    show (ok && osIsDir fs' pb.path_) = true ↔
      ok = true ∧ osIsDir fs' (buildPath p).path_ = true
    rw [Bool.and_eq_true]
    constructor
    · rintro ⟨hok, hdir⟩
      subst hok
      have hb : pb = buildPath p :=
        cdLoop_built denied p.path_as_vector_ fs fs' (path.ofString []) pb hcd
      exact ⟨rfl, by rw [← hb]; exact hdir⟩
    · rintro ⟨hok, hdir⟩
      subst hok
      have hb : pb = buildPath p :=
        cdLoop_built denied p.path_as_vector_ fs fs' (path.ofString []) pb hcd
      exact ⟨rfl, by rw [hb]; exact hdir⟩
  · intro hh
    rw [h1, Bool.and_eq_true] at hh
    obtain ⟨hok, hdir⟩ := hh
    subst hok
    have hrerun : cdLoop denied fs' (path.ofString []) p.path_as_vector_ =
        (pb, true, fs') :=
      cdLoop_rerun denied p.path_as_vector_ fs fs' (path.ofString []) pb hcd
    rw [h2]
    unfold create_directories
    rw [hrerun]
    show (true && osIsDir fs' pb.path_, fs') = (true, fs')
    rw [hdir]
    rfl

/-- Witness for Claim C5 at concrete inputs: creating `a/b` in the empty
filesystem with no denied paths succeeds, and the repeated call returns `true`
without changing the state. -/
theorem create_directories_spec_witness :
    (create_directories [] [] (path.ofString ['a', '/', 'b'])).1 = true ∧
      create_directories []
          (create_directories [] [] (path.ofString ['a', '/', 'b'])).2
          (path.ofString ['a', '/', 'b']) =
        (true, (create_directories [] [] (path.ofString ['a', '/', 'b'])).2) :=
  ⟨by decide,
    (create_directories_spec [] [] (path.ofString ['a', '/', 'b'])).2 (by decide)⟩

/-- Claim C6, counterexample: `p = Path("a//b")` is non-empty, non-root, and
has three segments (`["a", "", "b"]`), yet `parent_path(p) / filename(p)`
equals `Path("a/b")`, not `p`: the empty middle segment collapses, because
`parent_path` re-joins segments through `operator/=`, which appends exactly one
separator for the empty segment, and the final concatenation then sees a
trailing separator and does not add another one. -/
theorem parent_filename_counterexample :
    (path.ofString ['a', '/', '/', 'b']).path_ ≠ [] ∧
    2 ≤ (path.ofString ['a', '/', '/', 'b']).path_as_vector_.length ∧
    (path.ofString ['a', '/', '/', 'b']).path_ ≠ [kPreferredSeparator] ∧
    path.beq ((path.ofString ['a', '/', '/', 'b']).parent_path.div
        (path.ofString ['a', '/', '/', 'b']).filename)
      (path.ofString ['a', '/', '/', 'b']) = false := by decide

/-- Claim C6, amended: for every path constructed from a string with at least
two segments, all segments after the first nonempty, and no trailing separator
in the string form, `parent_path() / filename()` reconstructs a path equal (by
`operator==`, i.e. string-form equality) to the original. -/
theorem parent_filename_roundtrip (s : List Char)
    (hlen : 2 ≤ (path.ofString s).path_as_vector_.length)
    (htail : ∀ t ∈ (path.ofString s).path_as_vector_.tail, t ≠ [])
    (hsl : (path.ofString s).path_.getLast? ≠ some kPreferredSeparator) :
    path.beq ((path.ofString s).parent_path.div (path.ofString s).filename)
      (path.ofString s) = true := by
  have hvec : (path.ofString s).path_as_vector_ =
      splitSep kPreferredSeparator (normalize s) := rfl
  have hstr : (path.ofString s).path_ = normalize s := rfl
  have hsl' : (normalize s).getLast? ≠ some kPreferredSeparator := hsl
  have hsegne : splitSep kPreferredSeparator (normalize s) ≠ [] := by
    intro h
    rw [hvec, h] at hlen
    simp at hlen
  have hns : normalize s ≠ [] := by
    intro h
    exact hsegne (by rw [h]; rfl)
  have hemp : (path.ofString s).path_.isEmpty = false := by
    show (normalize s).isEmpty = false
    simp [List.isEmpty_iff, hns]
  have hlen1 : (path.ofString s).path_as_vector_.length ≠ 1 := by omega
  have hpp : (path.ofString s).parent_path =
      (path.ofString s).path_as_vector_.dropLast.foldl
        (parentStep (path.ofString s)) (path.ofString []) := by
    unfold path.parent_path path.empty
    rw [hemp]
    simp [hlen1, is_absolute_with_drive_letter]
  have hlast_mem : (splitSep kPreferredSeparator (normalize s)).getLastD [] ∈
      splitSep kPreferredSeparator (normalize s) :=
    getLastD_mem_of_ne_nil _ [] hsegne
  have hlast_clean := token_clean s _ hlast_mem
  obtain ⟨s0, s1, srest, hshape⟩ :
      ∃ s0 s1 srest,
        splitSep kPreferredSeparator (normalize s) = s0 :: s1 :: srest := by
    cases h1 : splitSep kPreferredSeparator (normalize s) with
    | nil => exact absurd h1 hsegne
    | cons a l =>
      cases l with
      | nil =>
        rw [hvec, h1] at hlen
        simp at hlen
      | cons b l2 => exact ⟨a, b, l2, rfl⟩
  have hlast_tail : (splitSep kPreferredSeparator (normalize s)).getLastD [] ∈
      (splitSep kPreferredSeparator (normalize s)).tail := by
    rw [hshape]
    show (s0 :: s1 :: srest).getLastD [] ∈ s1 :: srest
    rw [List.getLastD_cons]
    exact getLastD_mem_of_ne_nil _ s0 (by simp)
  have hlast_ne : (splitSep kPreferredSeparator (normalize s)).getLastD [] ≠ [] :=
    htail _ hlast_tail
  have hfn : (path.ofString s).filename =
      path.ofString ((splitSep kPreferredSeparator (normalize s)).getLastD []) := by
    unfold path.filename
    rw [hemp]
    rfl
  have hfn2 : (path.ofString s).filename =
      { path_ := (splitSep kPreferredSeparator (normalize s)).getLastD [],
        path_as_vector_ :=
          [(splitSep kPreferredSeparator (normalize s)).getLastD []] } := by
    rw [hfn]
    exact ofString_clean _ hlast_clean.1 hlast_clean.2 hlast_ne
  have hfrel : (path.ofString s).filename.is_absolute = false := by
    rw [hfn]
    exact ofString_clean_relative _ hlast_clean.1 hlast_clean.2
  cases hnse : normalize s with
  | nil => exact absurd hnse hns
  | cons c cs =>
  by_cases hcsep : c = kPreferredSeparator
  · -- absolute case
    have hpstr : (path.ofString s).path_ = c :: cs := hnse
    have habs : (path.ofString s).is_absolute = true := by
      unfold path.is_absolute
      rw [hpstr]
      simp [hcsep]
    have hsplit_ns : splitSep kPreferredSeparator (normalize s) =
        [] :: splitSep kPreferredSeparator cs := by
      rw [hnse, hcsep, splitSep_cons_self]
    have hrest_ne : splitSep kPreferredSeparator cs ≠ [] := by
      intro h
      rw [hvec, hsplit_ns, h] at hlen
      simp at hlen
    obtain ⟨r, rr, hr⟩ : ∃ r rr, splitSep kPreferredSeparator cs = r :: rr := by
      cases h : splitSep kPreferredSeparator cs with
      | nil => exact absurd h hrest_ne
      | cons a l => exact ⟨a, l, rfl⟩
    have hcond : ((path.ofString []).empty && (!(path.ofString s).is_absolute ||
        is_absolute_with_drive_letter (path.ofString s).path_)) = false := by
      rw [habs]
      simp [is_absolute_with_drive_letter]
    have hstep0 : parentStep (path.ofString s) (path.ofString []) [] =
        { path_ := [kPreferredSeparator], path_as_vector_ := [] } := by
      unfold parentStep
      rw [hcond]
      simp only [Bool.false_eq_true, if_false]
      decide
    cases rr with
    | nil =>
      have hdrop : (splitSep kPreferredSeparator (normalize s)).dropLast = [[]] := by
        rw [hsplit_ns, hr]
        rfl
      have hparent : (path.ofString s).parent_path =
          { path_ := [kPreferredSeparator], path_as_vector_ := [] } := by
        rw [hpp, show (path.ofString s).path_as_vector_.dropLast = [[]] from hdrop,
          List.foldl_cons, hstep0]
        rfl
      have hplast : (path.ofString s).parent_path.path_.getLast? =
          some kPreferredSeparator := by
        rw [hparent]
        decide
      have hdivf :
          ((path.ofString s).parent_path.div (path.ofString s).filename).path_ =
            (path.ofString s).parent_path.path_ ++
              (splitSep kPreferredSeparator (normalize s)).getLastD [] := by
        rw [div_rel_of_sep _ _ hfrel hplast, hfn2]
      have hlastseg : (splitSep kPreferredSeparator (normalize s)).getLastD [] =
          r := by
        rw [hsplit_ns, hr]
        rfl
      have hns_eq : normalize s = kPreferredSeparator :: r := by
        have h := joinSep_splitSep (normalize s) hsl'
        rw [hsplit_ns, hr] at h
        rw [← h]
        rfl
      have hfinal :
          ((path.ofString s).parent_path.div (path.ofString s).filename).path_ =
            normalize s := by
        rw [hdivf, hparent, hlastseg, hns_eq]
        rfl
      show (((path.ofString s).parent_path.div (path.ofString s).filename).path_ ==
          (path.ofString s).path_) = true
      rw [hfinal]
      exact beq_self_eq_true (normalize s)
    | cons a l =>
      have hrrne : (a :: l) ≠ ([] : List (List Char)) := by simp
      have hdrop : (splitSep kPreferredSeparator (normalize s)).dropLast =
          [] :: r :: (a :: l).dropLast := by
        rw [hsplit_ns, hr]
        rfl
      have hr_tail : r ∈ (splitSep kPreferredSeparator (normalize s)).tail := by
        rw [hsplit_ns, hr]
        exact List.mem_cons_self r (a :: l)
      have hr_mem : r ∈ splitSep kPreferredSeparator (normalize s) := by
        rw [hsplit_ns, hr]
        exact List.mem_cons_of_mem _ (List.mem_cons_self r (a :: l))
      have hr_ne : r ≠ [] := htail r hr_tail
      have hr_clean := token_clean s r hr_mem
      have hofr : path.ofString r = { path_ := r, path_as_vector_ := [r] } :=
        ofString_clean r hr_clean.1 hr_clean.2 hr_ne
      have hofr_rel : (path.ofString r).is_absolute = false :=
        ofString_clean_relative r hr_clean.1 hr_clean.2
      have hpar1 : ({ path_ := [kPreferredSeparator], path_as_vector_ := [] } :
          path).path_.getLast? = some kPreferredSeparator := by decide
      have hstep1 : parentStep (path.ofString s)
          { path_ := [kPreferredSeparator], path_as_vector_ := [] } r =
          ({ path_ := [kPreferredSeparator], path_as_vector_ := [] } : path).div
            (path.ofString r) := by
        unfold parentStep
        simp [path.empty]
      have hpar2 : ({ path_ := [kPreferredSeparator], path_as_vector_ := [] } :
          path).div (path.ofString r) =
          { path_ := [kPreferredSeparator] ++ r, path_as_vector_ := [] ++ [r] } := by
        rw [div_rel_of_sep _ _ hofr_rel hpar1, hofr]
      have hpar2_ne : ([kPreferredSeparator] ++ r : List Char) ≠ [] := by simp
      have hpar2_last : ([kPreferredSeparator] ++ r).getLast? ≠
          some kPreferredSeparator := by
        rw [List.getLast?_append_of_ne_nil _ hr_ne]
        exact getLast?_ne_of_not_mem r hr_clean.1
      have hmem_rest : ∀ x ∈ (a :: l).dropLast,
          x ≠ [] ∧ kPreferredSeparator ∉ x ∧ ('\\' : Char) ∉ x := by
        intro x hx
        have hx_rr : x ∈ (a :: l) := List.dropLast_subset _ hx
        have hx_tail : x ∈ (splitSep kPreferredSeparator (normalize s)).tail := by
          rw [hsplit_ns, hr]
          exact List.mem_cons_of_mem r hx_rr
        have hx_mem : x ∈ splitSep kPreferredSeparator (normalize s) := by
          rw [hsplit_ns, hr]
          exact List.mem_cons_of_mem _ (List.mem_cons_of_mem r hx_rr)
        have hcl := token_clean s x hx_mem
        exact ⟨htail x hx_tail, hcl.1, hcl.2⟩
      obtain ⟨hfs, hflast⟩ := foldl_parentStep_string (path.ofString s)
        (a :: l).dropLast
        ({ path_ := [kPreferredSeparator] ++ r, path_as_vector_ := [] ++ [r] } : path)
        hpar2_ne hpar2_last hmem_rest
      have hparent : (path.ofString s).parent_path.path_ =
          ([kPreferredSeparator] ++ r) ++ joinTail (a :: l).dropLast := by
        rw [hpp,
          show (path.ofString s).path_as_vector_.dropLast =
            [] :: r :: (a :: l).dropLast from hdrop,
          List.foldl_cons, hstep0, List.foldl_cons, hstep1, hpar2, hfs]
      have hplast : (path.ofString s).parent_path.path_.getLast? ≠
          some kPreferredSeparator := by
        rw [hpp,
          show (path.ofString s).path_as_vector_.dropLast =
            [] :: r :: (a :: l).dropLast from hdrop,
          List.foldl_cons, hstep0, List.foldl_cons, hstep1, hpar2]
        exact hflast
      have hdivf :
          ((path.ofString s).parent_path.div (path.ofString s).filename).path_ =
            (path.ofString s).parent_path.path_ ++ kPreferredSeparator ::
              (splitSep kPreferredSeparator (normalize s)).getLastD [] := by
        rw [div_rel_of_ne _ _ hfrel hplast, hfn2]
      have hlastseg : (splitSep kPreferredSeparator (normalize s)).getLastD [] =
          (a :: l).getLast hrrne := by
        rw [hsplit_ns, hr, List.getLastD_cons, List.getLastD_cons,
          List.getLastD_eq_getLast? _ _, List.getLast?_eq_getLast _ hrrne]
        rfl
      have hts_split : (a :: l).dropLast ++ [(a :: l).getLast hrrne] = a :: l :=
        List.dropLast_append_getLast hrrne
      have hjoin : joinTail (a :: l).dropLast ++
          kPreferredSeparator :: (a :: l).getLast hrrne = joinTail (a :: l) := by
        conv_rhs => rw [← hts_split]
        rw [joinTail_append]
        simp [joinTail]
      have hns_join : normalize s =
          ([kPreferredSeparator] ++ r) ++ joinTail (a :: l) := by
        have h := joinSep_splitSep (normalize s) hsl'
        rw [hsplit_ns, hr] at h
        rw [← h, joinSep_eq_head_append_joinTail]
        simp [joinTail]
      have hfinal :
          ((path.ofString s).parent_path.div (path.ofString s).filename).path_ =
            normalize s := by
        rw [hdivf, hparent, hlastseg, hns_join, List.append_assoc, hjoin]
      show (((path.ofString s).parent_path.div (path.ofString s).filename).path_ ==
          (path.ofString s).path_) = true
      rw [hfinal]
      exact beq_self_eq_true (normalize s)
  · -- relative case
    have hpstr : (path.ofString s).path_ = c :: cs := hnse
    have habs : (path.ofString s).is_absolute = false := by
      unfold path.is_absolute
      rw [hpstr]
      simp [hcsep, is_absolute_with_drive_letter]
    obtain ⟨t0, ts, hts⟩ := splitSep_cons_structure kPreferredSeparator c cs hcsep
    have hts' : splitSep kPreferredSeparator (normalize s) = (c :: t0) :: ts := by
      rw [hnse]
      exact hts
    have htsne : ts ≠ [] := by
      intro h
      rw [hvec, hts', h] at hlen
      simp at hlen
    have hdrop : (splitSep kPreferredSeparator (normalize s)).dropLast =
        (c :: t0) :: ts.dropLast := by
      rw [hts']
      cases ts with
      | nil => exact absurd rfl htsne
      | cons a l => rfl
    have hseg0_mem : (c :: t0) ∈ splitSep kPreferredSeparator (normalize s) := by
      rw [hts']
      exact List.mem_cons_self _ _
    have hseg0_clean := token_clean s _ hseg0_mem
    have hseg0 : path.ofString (c :: t0) =
        { path_ := c :: t0, path_as_vector_ := [c :: t0] } :=
      ofString_clean _ hseg0_clean.1 hseg0_clean.2 (by simp)
    have hstep0 : parentStep (path.ofString s) (path.ofString []) (c :: t0) =
        path.ofString (c :: t0) := by
      unfold parentStep
      rw [habs]
      simp [path.empty, ofString_nil]
    have hmem_rest : ∀ x ∈ ts.dropLast,
        x ≠ [] ∧ kPreferredSeparator ∉ x ∧ ('\\' : Char) ∉ x := by
      intro x hx
      have hx_ts : x ∈ ts := List.dropLast_subset ts hx
      have hx_tail : x ∈ (splitSep kPreferredSeparator (normalize s)).tail := by
        rw [hts']
        exact hx_ts
      have hx_mem : x ∈ splitSep kPreferredSeparator (normalize s) := by
        rw [hts']
        exact List.mem_cons_of_mem _ hx_ts
      have hcl := token_clean s x hx_mem
      exact ⟨htail x hx_tail, hcl.1, hcl.2⟩
    obtain ⟨hfs, hflast⟩ := foldl_parentStep_string (path.ofString s) ts.dropLast
      (path.ofString (c :: t0))
      (by rw [hseg0]; simp)
      (by rw [hseg0]; exact getLast?_ne_of_not_mem _ hseg0_clean.1)
      hmem_rest
    have hparent : (path.ofString s).parent_path.path_ =
        (c :: t0) ++ joinTail ts.dropLast := by
      rw [hpp,
        show (path.ofString s).path_as_vector_.dropLast =
          (c :: t0) :: ts.dropLast from hdrop,
        List.foldl_cons, hstep0, hfs, hseg0]
    have hplast : (path.ofString s).parent_path.path_.getLast? ≠
        some kPreferredSeparator := by
      rw [hpp,
        show (path.ofString s).path_as_vector_.dropLast =
          (c :: t0) :: ts.dropLast from hdrop,
        List.foldl_cons, hstep0]
      exact hflast
    have hdivf :
        ((path.ofString s).parent_path.div (path.ofString s).filename).path_ =
          (path.ofString s).parent_path.path_ ++ kPreferredSeparator ::
            (splitSep kPreferredSeparator (normalize s)).getLastD [] := by
      rw [div_rel_of_ne _ _ hfrel hplast, hfn2]
    have hlastseg : (splitSep kPreferredSeparator (normalize s)).getLastD [] =
        ts.getLast htsne := by
      rw [hts', List.getLastD_cons, List.getLastD_eq_getLast? _ _,
        List.getLast?_eq_getLast ts htsne]
      rfl
    have hts_split : ts.dropLast ++ [ts.getLast htsne] = ts :=
      List.dropLast_append_getLast htsne
    have hjoin : joinTail ts.dropLast ++
        kPreferredSeparator :: ts.getLast htsne = joinTail ts := by
      conv_rhs => rw [← hts_split]
      rw [joinTail_append]
      simp [joinTail]
    have hns_join : normalize s = (c :: t0) ++ joinTail ts := by
      have h := joinSep_splitSep (normalize s) hsl'
      rw [hts', joinSep_eq_head_append_joinTail] at h
      exact h.symm
    have hfinal :
        ((path.ofString s).parent_path.div (path.ofString s).filename).path_ =
          normalize s := by
      rw [hdivf, hparent, hlastseg, hns_join, List.append_assoc, hjoin]
    show (((path.ofString s).parent_path.div (path.ofString s).filename).path_ ==
        (path.ofString s).path_) = true
    rw [hfinal]
    exact beq_self_eq_true (normalize s)

/-- Witness for the amended Claim C6 at a concrete input. -/
theorem parent_filename_roundtrip_witness :
    path.beq ((path.ofString ['/', 'a', '/', 'b']).parent_path.div
        (path.ofString ['/', 'a', '/', 'b']).filename)
      (path.ofString ['/', 'a', '/', 'b']) = true :=
  parent_filename_roundtrip ['/', 'a', '/', 'b'] (by decide) (by decide) (by decide)

/-- Claim C1 (code bug), evaluation at the failing input: the modelled POSIX
`remove_all` on a directory `t` containing one sub-directory `d` which contains
one file `f`, all removable.  The recursive `remove_all` on `d` succeeds and
deletes `d`'s whole subtree, but control then still reaches the
`else if (!remove(sub_path))` branch, whose `remove` call acts on the
already-deleted path `d`, fails, and aborts the walk: the call returns `false`
and the directory `t` — though every child removal succeeded — is left in
place (now empty) instead of being removed. -/
theorem remove_all_dir_child_bug :
    remove_all
        (FsEntry.dir ['t'] true [FsEntry.dir ['d'] true [FsEntry.file ['f'] true]]) =
      (false, some (FsEntry.dir ['t'] true [])) := rfl

end fs

end rcpputils
